import Mathlib

/-!
Verification of the jit_calc expression evaluator (src/jit_calc.cpp).

The program evaluates arithmetic expressions in three ways: a recursive
tree-walk over the AST, a stack-based bytecode VM, and a JIT that turns the
bytecode into x87 machine code.  IEEE-754 binary64 values are embedded as
their 64-bit bit patterns (natural numbers below 2^64); the five arithmetic
operations are abstract deterministic functions on bit patterns, collected
in an `Ops` record, so every execution mode applies literally the same
operation to the same operands, which is exactly the "bit-for-bit equal or
all NaN" contract of the spec.

The file is organised as: all definitions (the shallow embedding of the
source), then all theorems.
-/

namespace JitCalc

/-! ## Raw little-endian byte serialization of 64-bit patterns

`Compiler::gen(double)` stores the 8 raw bytes of the double after the
`Push` opcode; `VM::run` and `VM::compile` read them back through
`reinterpret_cast<const double *>`.  We model that round trip on bit
patterns. -/

/-- The 8 little-endian base-256 digits of `v`: the raw bytes of the
stored 64-bit value. -/
def encodeLE (v : Nat) : List Nat :=
  [v % 256, v / 256 % 256, v / 256 ^ 2 % 256, v / 256 ^ 3 % 256,
   v / 256 ^ 4 % 256, v / 256 ^ 5 % 256, v / 256 ^ 6 % 256, v / 256 ^ 7 % 256]

/-- Reassemble a little-endian byte list into a natural number, as the
`reinterpret_cast` reads back the stored bytes. -/
def decodeLE (bs : List Nat) : Nat :=
  bs.foldr (fun b acc => acc * 256 + b) 0

/-! ## The data model

The five binary operations on binary64 bit patterns.  The program obtains
them from the hardware (`+ - * /` and x87 arithmetic) and from libc `pow`;
here they are abstract deterministic functions, shared by all three
execution modes. -/

structure Ops (α : Type) where
  fadd : α → α → α
  fsub : α → α → α
  fmul : α → α → α
  fdiv : α → α → α
  fpow : α → α → α

/-- The AST node hierarchy: `ValueNode` and the five binary node classes. -/
inductive Node (α : Type) where
  | valueNode (v : α)
  | plusNode (l r : Node α)
  | minusNode (l r : Node α)
  | multiplyNode (l r : Node α)
  | divideNode (l r : Node α)
  | powerNode (l r : Node α)
  deriving DecidableEq

/-- Source `Node::eval`: direct recursive tree-walk evaluation. -/
def Node.eval (o : Ops α) : Node α → α
  | .valueNode v => v
  | .plusNode l r => o.fadd (l.eval o) (r.eval o)
  | .minusNode l r => o.fsub (l.eval o) (r.eval o)
  | .multiplyNode l r => o.fmul (l.eval o) (r.eval o)
  | .divideNode l r => o.fdiv (l.eval o) (r.eval o)
  | .powerNode l r => o.fpow (l.eval o) (r.eval o)

/-- Representation invariant of the embedding: every constant in the tree
is the bit pattern of a binary64, i.e. fits in 64 bits. -/
def Node.wfb : Node Nat → Bool
  | .valueNode v => decide (v < 256 ^ 8)
  | .plusNode l r => l.wfb && r.wfb
  | .minusNode l r => l.wfb && r.wfb
  | .multiplyNode l r => l.wfb && r.wfb
  | .divideNode l r => l.wfb && r.wfb
  | .powerNode l r => l.wfb && r.wfb

/-! ## Bytecode

`VM::ByteCode`: Push = 0, Add = 1, Sub = 2, Mul = 3, Div = 4, Pow = 5,
Ret = 6. -/

def pushOp : Nat := 0
def addOp : Nat := 1
def subOp : Nat := 2
def mulOp : Nat := 3
def divOp : Nat := 4
def powOp : Nat := 5
def retOp : Nat := 6

/-- A compiled `Function`: the bytecode bytes plus the reported operand
stack size in bytes (`int stackSize` in the source, hence `Int`). -/
structure Function where
  code : List Nat
  stackSize : Int
  deriving DecidableEq

/-! ## The bytecode `Compiler`

Mirrors the `Compiler` class: a byte vector `code`, a shadow stack pointer
`sp` and the running maximum `stackSize`, with the member operations
`gen(ByteCode)`, `gen(double)`, `push()`, `pop()`. -/

structure CompState where
  code : List Nat
  sp : Int
  stackSize : Int
  deriving DecidableEq

/-- Source `Compiler::gen(VM::ByteCode)`: append one opcode byte. -/
def CompState.genOp (s : CompState) (b : Nat) : CompState :=
  { s with code := s.code ++ [b] }

/-- Source `Compiler::gen(double)`: append the 8 raw bytes of the value. -/
def CompState.genVal (s : CompState) (v : Nat) : CompState :=
  { s with code := s.code ++ encodeLE v }

/-- Source `Compiler::push()`: `sp += 8; stackSize = max(stackSize, sp)`. -/
def CompState.push (s : CompState) : CompState :=
  { s with sp := s.sp + 8, stackSize := max s.stackSize (s.sp + 8) }

/-- Source `Compiler::pop()`: `sp -= 8`. -/
def CompState.pop (s : CompState) : CompState :=
  { s with sp := s.sp - 8 }

/-- The virtual `Node::compile(Compiler *)` methods: post-order walk
emitting `Push v` for leaves and left-code, right-code, opcode for the
binary nodes. -/
def Node.compileAux : Node Nat → CompState → CompState
  | .valueNode v, s => ((s.genOp pushOp).genVal v).push
  | .plusNode l r, s => ((r.compileAux (l.compileAux s)).genOp addOp).pop
  | .minusNode l r, s => ((r.compileAux (l.compileAux s)).genOp subOp).pop
  | .multiplyNode l r, s => ((r.compileAux (l.compileAux s)).genOp mulOp).pop
  | .divideNode l r, s => ((r.compileAux (l.compileAux s)).genOp divOp).pop
  | .powerNode l r, s => ((r.compileAux (l.compileAux s)).genOp powOp).pop

/-- Source `Compiler::compile`: clear the state, walk the tree, emit `Ret`, and
return the code together with the tracked `stackSize`. -/
def Compiler.compile (t : Node Nat) : Function :=
  let s := (t.compileAux { code := [], sp := 0, stackSize := 0 }).genOp retOp
  { code := s.code, stackSize := s.stackSize }

/-- The stateful `Compiler` object reused across calls by `main`:
`compile` first does `code.clear(); sp = 0; stackSize = 0`, so the member
state left over from an earlier call (the argument `c`) is erased.
Returns the updated member state together with the produced `Function`. -/
def Compiler.compileMember (c : CompState) (t : Node Nat) : CompState × Function :=
  let s := (t.compileAux { code := [], sp := 0, stackSize := 0 }).genOp retOp
  (s, { code := s.code, stackSize := s.stackSize })

/-! ## Compositional description of the compiler output -/

/-- The bytecode a subtree contributes, described compositionally:
`Push`+8 bytes for a leaf, left ++ right ++ opcode for a binary node. -/
def Node.emit : Node Nat → List Nat
  | .valueNode v => pushOp :: encodeLE v
  | .plusNode l r => l.emit ++ r.emit ++ [addOp]
  | .minusNode l r => l.emit ++ r.emit ++ [subOp]
  | .multiplyNode l r => l.emit ++ r.emit ++ [mulOp]
  | .divideNode l r => l.emit ++ r.emit ++ [divOp]
  | .powerNode l r => l.emit ++ r.emit ++ [powOp]

/-- Peak operand-stack depth (in values) of the post-order evaluation. -/
def Node.maxDepth : Node α → Nat
  | .valueNode _ => 1
  | .plusNode l r => max l.maxDepth (r.maxDepth + 1)
  | .minusNode l r => max l.maxDepth (r.maxDepth + 1)
  | .multiplyNode l r => max l.maxDepth (r.maxDepth + 1)
  | .divideNode l r => max l.maxDepth (r.maxDepth + 1)
  | .powerNode l r => max l.maxDepth (r.maxDepth + 1)

/-- The constants of a tree in `Push` order (the order in which the JIT
collects them into its constant pool). -/
def Node.consts : Node Nat → List Nat
  | .valueNode v => [v]
  | .plusNode l r => l.consts ++ r.consts
  | .minusNode l r => l.consts ++ r.consts
  | .multiplyNode l r => l.consts ++ r.consts
  | .divideNode l r => l.consts ++ r.consts
  | .powerNode l r => l.consts ++ r.consts

/-! ## The bytecode `VM` interpreter (`VM::run`)

`VM::run` walks the byte stream with an instruction pointer and a
downward-growing operand stack of doubles allocated with some capacity.
The embedding keeps the stack as a list (head = top) and makes the
behaviours that are out-of-bounds memory accesses in the C++ (popping
with fewer than the needed operands, pushing past the capacity, running
off the end of the code) observable as distinct outcomes.  `Ret` returns
the top value together with the operand stack it sees. -/

inductive VMResult where
  | ret (v : Nat) (stack : List Nat)
  | invalidByteCode
  | stackUnderflow
  | stackOverflow
  | outOfCode
  deriving DecidableEq

/-- Dispatch of the five arithmetic opcodes, `x` the earlier (left)
operand, `y` the top of stack. -/
def binopFn (o : Ops Nat) (b : Nat) : Nat → Nat → Nat :=
  if b = addOp then o.fadd
  else if b = subOp then o.fsub
  else if b = mulOp then o.fmul
  else if b = divOp then o.fdiv
  else o.fpow

/-- Source `VM::run` on code bytes and the current operand stack. -/
def vmRun (o : Ops Nat) (cap : Nat) : List Nat → List Nat → VMResult
  | [], _ => .outOfCode
  | b :: rest, stack =>
    if b = pushOp then
      match rest with
      | b0 :: b1 :: b2 :: b3 :: b4 :: b5 :: b6 :: b7 :: rest2 =>
        if stack.length < cap then
          vmRun o cap rest2 (decodeLE [b0, b1, b2, b3, b4, b5, b6, b7] :: stack)
        else .stackOverflow
      | _ => .outOfCode
    else if b = retOp then
      match stack with
      | v :: s => .ret v (v :: s)
      | [] => .stackUnderflow
    else if b ≤ 5 then
      match stack with
      | y :: x :: s => vmRun o cap rest (binopFn o b x y :: s)
      | _ => .stackUnderflow
    else .invalidByteCode

/-! ## The JIT backend (`VM::compile`, first variant)

The JIT walks the bytecode keeping a compile-time shadow stack pointer
`sp` (bytes below `EBP`): exactly one live operand sits in `ST0`, earlier
operands are spilled to `[EBP - sp]`.  We record the emitted x87
instructions symbolically; the `data` / `stackSize` / `pow` relocations
of the source become explicit parameters of the machine-code interpreter
below (the pool contents, the patched frame size, the address of `pow`).
Memory operands record their displacement: `d` relative to `EBP`
(negative below), `off` relative to `ESP` (which after the prologue sits
`frame` bytes below `EBP`). -/

inductive X86Instr where
  | fldData (k : Nat)
  | fldEbp (d : Int)
  | fstpEbp (d : Int)
  | faddEbp (d : Int)
  | fsubrEbp (d : Int)
  | fmulEbp (d : Int)
  | fdivrEbp (d : Int)
  | fstpEsp (off : Nat)
  | callPow
  | leave
  | ret
  deriving DecidableEq

inductive JitErr where
  | invalidByteCode
  | outOfCode
  deriving DecidableEq

structure JitState where
  instrs : List X86Instr
  data : List Nat
  sp : Int
  stackSize : Int
  deriving DecidableEq

structure JitOut where
  instrs : List X86Instr
  data : List Nat
  frame : Int
  deriving DecidableEq

/-- The memory-operand x87 arithmetic instruction the JIT emits for each
arithmetic opcode (`faddl`, `fsubrl`, `fmull`, `fdivrl`). -/
def jitBinopInstr (b : Nat) (d : Int) : X86Instr :=
  if b = addOp then .faddEbp d
  else if b = subOp then .fsubrEbp d
  else if b = mulOp then .fmulEbp d
  else .fdivrEbp d

/-- The loop body of `VM::compile`: `off` is the byte offset of the
opcode under the instruction pointer (the source tests
`ip > f.code.data() + 1` after the increment, i.e. `0 < off`, to decide
whether a previous `ST0` value must be spilled before a `Push`). -/
def jitGo : List Nat → Nat → JitState → Except JitErr JitOut
  | [], _, _ => .error .outOfCode
  | b :: rest, off, st =>
    if b = pushOp then
      match rest with
      | b0 :: b1 :: b2 :: b3 :: b4 :: b5 :: b6 :: b7 :: rest2 =>
        jitGo rest2 (off + 9)
          { instrs := st.instrs
              ++ (if 0 < off then [X86Instr.fstpEbp (-st.sp)] else [])
              ++ [X86Instr.fldData st.data.length],
            data := st.data ++ [decodeLE [b0, b1, b2, b3, b4, b5, b6, b7]],
            sp := st.sp + 8,
            stackSize := st.stackSize }
      | _ => .error .outOfCode
    else if b = retOp then
      .ok { instrs := st.instrs ++ [X86Instr.leave, X86Instr.ret],
            data := st.data,
            frame := st.stackSize - 8 }
    else if b = powOp then
      jitGo rest (off + 1)
        { instrs := st.instrs
            ++ [X86Instr.fldEbp (-st.sp + 8), X86Instr.fstpEsp 0,
                X86Instr.fstpEsp 8, X86Instr.callPow],
          data := st.data,
          sp := st.sp - 8,
          stackSize := max st.stackSize (st.sp + 16) }
    else if b ≤ 4 then
      jitGo rest (off + 1)
        { st with
            instrs := st.instrs ++ [jitBinopInstr b (-(st.sp - 8))],
            sp := st.sp - 8 }
    else .error .invalidByteCode

/-- Source `VM::compile` on a compiled `Function`: `sp` starts at 0, the
tracked `stackSize` starts from the compiler's `f.stackSize`. -/
def jitCompile (f : Function) : Except JitErr JitOut :=
  jitGo f.code 0 { instrs := [], data := [], sp := 0, stackSize := f.stackSize }

/-! ## Compositional description of the JIT output -/

/-- The instructions the JIT emits for the bytecode of one subtree
starting at byte offset `off` of the program, entered with shadow stack
pointer `sp` and `k` constants already in the pool.  Only a `Push` at
offset 0 (the very first opcode of the program) has nothing to spill. -/
def Node.jinstrs : Node Nat → Nat → Int → Nat → List X86Instr
  | .valueNode _, off, sp, k =>
    (if off = 0 then [] else [X86Instr.fstpEbp (-sp)]) ++ [X86Instr.fldData k]
  | .plusNode l r, off, sp, k =>
    l.jinstrs off sp k ++ r.jinstrs (off + l.emit.length) (sp + 8) (k + l.consts.length)
      ++ [X86Instr.faddEbp (-(sp + 8))]
  | .minusNode l r, off, sp, k =>
    l.jinstrs off sp k ++ r.jinstrs (off + l.emit.length) (sp + 8) (k + l.consts.length)
      ++ [X86Instr.fsubrEbp (-(sp + 8))]
  | .multiplyNode l r, off, sp, k =>
    l.jinstrs off sp k ++ r.jinstrs (off + l.emit.length) (sp + 8) (k + l.consts.length)
      ++ [X86Instr.fmulEbp (-(sp + 8))]
  | .divideNode l r, off, sp, k =>
    l.jinstrs off sp k ++ r.jinstrs (off + l.emit.length) (sp + 8) (k + l.consts.length)
      ++ [X86Instr.fdivrEbp (-(sp + 8))]
  | .powerNode l r, off, sp, k =>
    l.jinstrs off sp k ++ r.jinstrs (off + l.emit.length) (sp + 8) (k + l.consts.length)
      ++ [X86Instr.fldEbp (-(sp + 8)), X86Instr.fstpEsp 0,
          X86Instr.fstpEsp 8, X86Instr.callPow]

/-- The tracked `stackSize` after JIT-compiling one subtree entered at
shadow pointer `sp` with current value `ss`: each `Pow` opcode, executed
at shadow level `sp + 16`, raises it to at least `sp + 32`. -/
def Node.jss : Node Nat → Int → Int → Int
  | .valueNode _, _, ss => ss
  | .plusNode l r, sp, ss => r.jss (sp + 8) (l.jss sp ss)
  | .minusNode l r, sp, ss => r.jss (sp + 8) (l.jss sp ss)
  | .multiplyNode l r, sp, ss => r.jss (sp + 8) (l.jss sp ss)
  | .divideNode l r, sp, ss => r.jss (sp + 8) (l.jss sp ss)
  | .powerNode l r, sp, ss => max (r.jss (sp + 8) (l.jss sp ss)) (sp + 32)

/-- Net effect of JIT-compiling one subtree's bytecode on the `jitGo`
state. -/
def stepState (t : Node Nat) (off : Nat) (st : JitState) : JitState :=
  { instrs := st.instrs ++ t.jinstrs off st.sp st.data.length,
    data := st.data ++ t.consts,
    sp := st.sp + 8,
    stackSize := t.jss st.sp st.stackSize }

/-- The completed JIT output for a tree, compositionally: the tree's
instruction chunk followed by the epilogue, the constant pool, and the
patched frame size. -/
def jitOutOf (t : Node Nat) : JitOut :=
  { instrs := t.jinstrs 0 0 0 ++ [X86Instr.leave, X86Instr.ret],
    data := t.consts,
    frame := t.jss 0 (8 * (t.maxDepth : Int)) - 8 }

/-- Frame sufficiency, as a check over the emitted instructions: every
`fstpl` spill store to `[EBP - disp]` has `disp ≤ frame`, and any
emitted `call pow` (whose two argument slots occupy `[ESP, ESP+16)`)
has `16 ≤ frame`. -/
def frameOk (out : JitOut) : Bool :=
  out.instrs.all fun i =>
    match i with
    | X86Instr.fstpEbp d => decide (-d ≤ out.frame)
    | X86Instr.callPow => decide (16 ≤ out.frame)
    | _ => true


/-- Frame-safety of the `Pow` call sites of a subtree entered at shadow
pointer `sp`: the patched frame must reach below every live spill slot
at each `call pow`, i.e. `frame ≥ sp + 24` for a `Pow` executing at
shadow level `sp + 16`. -/
def Node.powSafe : Node Nat → Int → Int → Prop
  | .valueNode _, _, _ => True
  | .plusNode l r, sp, frame => l.powSafe sp frame ∧ r.powSafe (sp + 8) frame
  | .minusNode l r, sp, frame => l.powSafe sp frame ∧ r.powSafe (sp + 8) frame
  | .multiplyNode l r, sp, frame => l.powSafe sp frame ∧ r.powSafe (sp + 8) frame
  | .divideNode l r, sp, frame => l.powSafe sp frame ∧ r.powSafe (sp + 8) frame
  | .powerNode l r, sp, frame =>
    l.powSafe sp frame ∧ r.powSafe (sp + 8) frame ∧ sp + 24 ≤ frame

/-! ## The emitted machine code, interpreted

State of the x87/memory machine while the emitted function runs: the
x87 register stack (head = `ST0`) and the frame memory as a map from
`EBP`-relative displacements (negative below `EBP`) to stored doubles.
After the prologue `ESP = EBP - frame`, so `[ESP + off]` is displacement
`off - frame`.  `call pow` reads its two cdecl argument slots `[ESP]`
and `[ESP + 8]` and leaves the result in `ST0`.  x87 memory-operand
instructions compute: `faddl m`: `ST0 + m`; `fsubrl m`: `m - ST0`;
`fmull m`: `ST0 * m`; `fdivrl m`: `m / ST0`. -/

structure X87St where
  fp : List Nat
  mem : Int → Nat

def memWrite (m : Int → Nat) (d : Int) (v : Nat) : Int → Nat :=
  fun x => if x = d then v else m x

def x86Run (o : Ops Nat) (frame : Int) (data : List Nat) :
    List X86Instr → X87St → Option X87St
  | [], _ => none
  | i :: rest, st =>
    match i with
    | .fldData k =>
      match data[k]? with
      | some v => x86Run o frame data rest { fp := v :: st.fp, mem := st.mem }
      | none => none
    | .fldEbp d => x86Run o frame data rest { fp := st.mem d :: st.fp, mem := st.mem }
    | .fstpEbp d =>
      match st.fp with
      | v :: fp2 => x86Run o frame data rest { fp := fp2, mem := memWrite st.mem d v }
      | [] => none
    | .faddEbp d =>
      match st.fp with
      | v :: fp2 =>
        x86Run o frame data rest { fp := o.fadd v (st.mem d) :: fp2, mem := st.mem }
      | [] => none
    | .fsubrEbp d =>
      match st.fp with
      | v :: fp2 =>
        x86Run o frame data rest { fp := o.fsub (st.mem d) v :: fp2, mem := st.mem }
      | [] => none
    | .fmulEbp d =>
      match st.fp with
      | v :: fp2 =>
        x86Run o frame data rest { fp := o.fmul v (st.mem d) :: fp2, mem := st.mem }
      | [] => none
    | .fdivrEbp d =>
      match st.fp with
      | v :: fp2 =>
        x86Run o frame data rest { fp := o.fdiv (st.mem d) v :: fp2, mem := st.mem }
      | [] => none
    | .fstpEsp off =>
      match st.fp with
      | v :: fp2 =>
        x86Run o frame data rest
          { fp := fp2, mem := memWrite st.mem ((off : Int) - frame) v }
      | [] => none
    | .callPow =>
      x86Run o frame data rest
        { fp := o.fpow (st.mem (-frame)) (st.mem (8 - frame)) :: st.fp, mem := st.mem }
    | .leave => x86Run o frame data rest st
    | .ret => some st

/-- The whole JIT execution path of the REPL: compile the bytecode to
x86, run the emitted function (with arbitrary initial frame memory `m`),
and observe the x87 stack at `ret` (the returned `ST0` on top). -/
def jitPipeline (o : Ops Nat) (f : Function) (m : Int → Nat) : Option (List Nat) :=
  match jitCompile f with
  | .ok out => Option.map X87St.fp (x86Run o out.frame out.data out.instrs { fp := [], mem := m })
  | .error _ => none

/-- Garbage-free initial frame memory used by witnesses (the theorems
hold for every initial memory). -/
def zeroMem : Int → Nat := fun _ => 0

/-! ## The second JIT variant

The third source section keeps the runtime operand stack in memory below
`ESP` and emits `fld`/`fxxxp`/`fstp` groups per opcode; its `Pow` case
only advances the instruction pointer and emits nothing. -/

inductive X86Instr2 where
  | subEsp8
  | movImmEsp (off : Nat) (w : Nat)
  | fldEsp (off : Nat)
  | faddp
  | fsubp
  | fmulp
  | fdivp
  | addEsp8
  | fstpEsp (off : Nat)
  | leave
  | ret
  deriving DecidableEq

/-- The x87 arithmetic instruction of the second variant per opcode. -/
def jit2ArithInstr (b : Nat) : X86Instr2 :=
  if b = addOp then .faddp
  else if b = subOp then .fsubp
  else if b = mulOp then .fmulp
  else .fdivp

/-- The loop of the second variant's `VM::compile`.  A `Push` stores the
two 32-bit halves of the immediate with two `mov`s; `Ret` loads the top
of the memory stack into `ST0` and returns; `Pow` emits nothing.  If the
loop runs off the end of the code it returns the default (empty)
function. -/
def jit2Go : List Nat → List X86Instr2 → Except JitErr (List X86Instr2)
  | [], _ => .ok []
  | b :: rest, acc =>
    if b = pushOp then
      match rest with
      | b0 :: b1 :: b2 :: b3 :: b4 :: b5 :: b6 :: b7 :: rest2 =>
        jit2Go rest2 (acc ++
          [X86Instr2.subEsp8,
           X86Instr2.movImmEsp 0 (decodeLE [b0, b1, b2, b3]),
           X86Instr2.movImmEsp 4 (decodeLE [b4, b5, b6, b7])])
      | _ => .error .outOfCode
    else if b = retOp then
      .ok (acc ++ [X86Instr2.fldEsp 0, X86Instr2.leave, X86Instr2.ret])
    else if b = powOp then
      jit2Go rest acc
    else if b ≤ 4 then
      jit2Go rest (acc ++
        [X86Instr2.fldEsp 0, X86Instr2.fldEsp 8, jit2ArithInstr b,
         X86Instr2.addEsp8, X86Instr2.fstpEsp 0])
    else .error .invalidByteCode

/-! ## The Lexer

`Lexer::lex` over the characters of the input.  The C character
classification functions are modelled on ASCII.  The fuel argument is a
termination device only: every iteration consumes at least one
character, so `length + 1` fuel always suffices. -/

def isspaceC (c : Char) : Bool :=
  c = ' ' || c = '\t' || c = '\n' || c = '\x0b' || c = '\x0c' || c = '\r'

def isdigitC (c : Char) : Bool :=
  '0' ≤ c && c ≤ '9'

def isalphaC (c : Char) : Bool :=
  ('a' ≤ c && c ≤ 'z') || ('A' ≤ c && c ≤ 'Z')

def isalnumC (c : Char) : Bool :=
  isalphaC c || isdigitC c

/-- Membership in the punctuation set `"+-*/^()"`. -/
def isPunct (c : Char) : Bool :=
  c = '+' || c = '-' || c = '*' || c = '/' || c = '^' || c = '(' || c = ')'

/-- A token: its id character (`n` number, `u` unknown/identifier, `e`
end, or the punctuation character itself) and its text. -/
structure Token where
  id : Char
  text : String
  deriving DecidableEq

def lexAux : Nat → List Char → List Token
  | 0, _ => []
  | fuel + 1, cs =>
    match cs with
    | [] => [{ id := 'e', text := "" }]
    | c :: cs2 =>
      if isspaceC c then lexAux fuel cs2
      else if isdigitC c then
        let ds := (c :: cs2).takeWhile isdigitC
        match (c :: cs2).dropWhile isdigitC with
        | '.' :: rest2 =>
          { id := 'n', text := String.mk (ds ++ '.' :: rest2.takeWhile isdigitC) }
            :: lexAux fuel (rest2.dropWhile isdigitC)
        | rest1 => { id := 'n', text := String.mk ds } :: lexAux fuel rest1
      else if isalphaC c then
        { id := 'u', text := String.mk ((c :: cs2).takeWhile isalnumC) }
          :: lexAux fuel ((c :: cs2).dropWhile isalnumC)
      else
        { id := if isPunct c then c else 'u', text := String.mk [c] }
          :: lexAux fuel cs2

/-- Source `Lexer::lex`. -/
def lex (s : String) : List Token := lexAux (s.data.length + 1) s.data

/-! ## Number conversion and rational operations for the parser claims

`std::stod` on the number lexemes the lexer produces (digits, optionally
a dot and more digits).  The parser claims evaluate expressions whose
values and operation results are exactly representable, so they are
settled over exact rationals; `qpow` models libc `pow` on the
natural-number exponents that arise there. -/

def digitsVal (ds : List Char) : Nat :=
  ds.foldl (fun a c => a * 10 + (c.toNat - 48)) 0

def stodQ (s : String) : ℚ :=
  let ip := s.data.takeWhile isdigitC
  match s.data.dropWhile isdigitC with
  | '.' :: fs =>
    let fd := fs.takeWhile isdigitC
    (digitsVal ip : ℚ) + (digitsVal fd : ℚ) / (10 : ℚ) ^ fd.length
  | _ => (digitsVal ip : ℚ)

def qpow (a b : ℚ) : ℚ :=
  if b.den = 1 ∧ 0 ≤ b.num then a ^ b.num.toNat else 0

def qOps : Ops ℚ :=
  { fadd := fun a b => a + b,
    fsub := fun a b => a - b,
    fmul := fun a b => a * b,
    fdiv := fun a b => a / b,
    fpow := qpow }

/-! ## The Parser

Recursive-descent over the token list, one function per production of
`Parser` (`addSub`, `mulDiv`, `power`, `unary`, `term`) plus one
function per `while (accept(op))` loop.  The recursion through
parentheses (`term` back into `addSub`) is tied by the fueled `exprP`;
each loop carries its own fuel.  Fuel is a termination device only:
loops consume one token per iteration and parenthesis nesting is
bounded by the token count, so the provided fuel is never exhausted. -/

abbrev ParseRes := Except String (Node ℚ × List Token)

/-- Source `Parser::term`: number, parenthesized expression, or the error
cases. -/
def termF (p : List Token → ParseRes) : List Token → ParseRes
  | { id := 'n', text := txt } :: ts1 => .ok (Node.valueNode (stodQ txt), ts1)
  | { id := '(', text := _ } :: ts1 => do
    let (n, ts2) ← p ts1
    match ts2 with
    | { id := ')', text := _ } :: ts3 => .ok (n, ts3)
    | _ => .error ("unmatched parentheses")
  | { id := 'u', text := txt } :: _ => .error ("unknown token \x27" ++ txt ++ "\x27")
  | { id := 'e', text := _ } :: _ => .error ("unexpected end of expression")
  | { id := _, text := txt } :: _ => .error ("unexpected token \x27" ++ txt ++ "\x27")
  | [] => .error ("unexpected end of expression")

/-- Source `Parser::unary`: unary `+`/`-` desugared through a zero `ValueNode`. -/
def unaryF (p : List Token → ParseRes) : List Token → ParseRes
  | { id := '+', text := _ } :: ts1 => do
    let (m, ts2) ← termF p ts1
    .ok (Node.plusNode (Node.valueNode 0) m, ts2)
  | { id := '-', text := _ } :: ts1 => do
    let (m, ts2) ← termF p ts1
    .ok (Node.minusNode (Node.valueNode 0) m, ts2)
  | ts => termF p ts

/-- The `while (accept('^'))` loop of `Parser::power`: folds to the
left. -/
def powerLoopF (p : List Token → ParseRes) : Nat → Node ℚ → List Token → ParseRes
  | 0, _, _ => .error ("fuel")
  | fuel + 1, n, { id := '^', text := _ } :: ts1 => do
    let (m, ts2) ← unaryF p ts1
    powerLoopF p fuel (Node.powerNode n m) ts2
  | _ + 1, n, ts => .ok (n, ts)

/-- Source `Parser::power`. -/
def powerF (p : List Token → ParseRes) (ts : List Token) : ParseRes := do
  let (n, ts1) ← unaryF p ts
  powerLoopF p (ts1.length + 1) n ts1

/-- The `while` loop of `Parser::mulDiv`. -/
def mulDivLoopF (p : List Token → ParseRes) : Nat → Node ℚ → List Token → ParseRes
  | 0, _, _ => .error ("fuel")
  | fuel + 1, n, { id := '*', text := _ } :: ts1 => do
    let (m, ts2) ← powerF p ts1
    mulDivLoopF p fuel (Node.multiplyNode n m) ts2
  | fuel + 1, n, { id := '/', text := _ } :: ts1 => do
    let (m, ts2) ← powerF p ts1
    mulDivLoopF p fuel (Node.divideNode n m) ts2
  | _ + 1, n, ts => .ok (n, ts)

/-- Source `Parser::mulDiv`. -/
def mulDivF (p : List Token → ParseRes) (ts : List Token) : ParseRes := do
  let (n, ts1) ← powerF p ts
  mulDivLoopF p (ts1.length + 1) n ts1

/-- The `while` loop of `Parser::addSub`. -/
def addSubLoopF (p : List Token → ParseRes) : Nat → Node ℚ → List Token → ParseRes
  | 0, _, _ => .error ("fuel")
  | fuel + 1, n, { id := '+', text := _ } :: ts1 => do
    let (m, ts2) ← mulDivF p ts1
    addSubLoopF p fuel (Node.plusNode n m) ts2
  | fuel + 1, n, { id := '-', text := _ } :: ts1 => do
    let (m, ts2) ← mulDivF p ts1
    addSubLoopF p fuel (Node.minusNode n m) ts2
  | _ + 1, n, ts => .ok (n, ts)

/-- Source `Parser::addSub`. -/
def addSubF (p : List Token → ParseRes) (ts : List Token) : ParseRes := do
  let (n, ts1) ← mulDivF p ts
  addSubLoopF p (ts1.length + 1) n ts1

/-- The knot: the full expression grammar, fueled by the parenthesis
nesting depth. -/
def exprP : Nat → List Token → ParseRes
  | 0, _ => .error ("fuel")
  | fuel + 1, ts => addSubF (exprP fuel) ts

/-- Source `Parser::parse`: parse an `addSub`, then require the `e` (End)
token. -/
def Parser.parse (ts : List Token) : Except String (Node ℚ) := do
  let (n, ts1) ← exprP (ts.length + 1) ts
  match ts1 with
  | { id := 'e', text := _ } :: _ => .ok n
  | _ => .error ("there\x27s an excess part of expression")

/-! ## Concrete operation instances used by witnesses -/

/-- A concrete instance of the abstract bit-pattern operations (any
deterministic functions qualify; witnesses use ordinary arithmetic). -/
def natOps : Ops Nat :=
  { fadd := fun a b => a + b,
    fsub := fun a b => a - b,
    fmul := fun a b => a * b,
    fdiv := fun a b => a / b,
    fpow := fun a b => a ^ b }

/-! # Theorems -/

theorem encodeLE_length (v : Nat) : (encodeLE v).length = 8 := by
  simp [encodeLE]

theorem decodeLE_encodeLE (v : Nat) : decodeLE (encodeLE v) = v % 256 ^ 8 := by
  simp only [encodeLE, decodeLE, List.foldr_cons, List.foldr_nil]
  norm_num
  omega

/-- Bit patterns of real doubles fit in 64 bits; for those the byte
round trip is the identity. -/
theorem decodeLE_encodeLE_of_lt {v : Nat} (h : v < 256 ^ 8) :
    decodeLE (encodeLE v) = v := by
  rw [decodeLE_encodeLE, Nat.mod_eq_of_lt h]

theorem maxDepth_pos (t : Node α) : 1 ≤ t.maxDepth := by
  induction t <;> simp [Node.maxDepth]

theorem compileAux_spec (t : Node Nat) (s : CompState) :
    t.compileAux s =
      { code := s.code ++ t.emit,
        sp := s.sp + 8,
        stackSize := max s.stackSize (s.sp + 8 * t.maxDepth) } := by
  induction t generalizing s with
  | valueNode v =>
    simp [Node.compileAux, Node.emit, Node.maxDepth, CompState.genOp,
      CompState.genVal, CompState.push]
  | plusNode l r ihl ihr =>
    simp only [Node.compileAux, ihl, ihr, CompState.genOp, CompState.pop,
      Node.emit, Node.maxDepth, CompState.mk.injEq]
    refine ⟨by simp, by ring, ?_⟩
    push_cast
    omega
  | minusNode l r ihl ihr =>
    simp only [Node.compileAux, ihl, ihr, CompState.genOp, CompState.pop,
      Node.emit, Node.maxDepth, CompState.mk.injEq]
    refine ⟨by simp, by ring, ?_⟩
    push_cast
    omega
  | multiplyNode l r ihl ihr =>
    simp only [Node.compileAux, ihl, ihr, CompState.genOp, CompState.pop,
      Node.emit, Node.maxDepth, CompState.mk.injEq]
    refine ⟨by simp, by ring, ?_⟩
    push_cast
    omega
  | divideNode l r ihl ihr =>
    simp only [Node.compileAux, ihl, ihr, CompState.genOp, CompState.pop,
      Node.emit, Node.maxDepth, CompState.mk.injEq]
    refine ⟨by simp, by ring, ?_⟩
    push_cast
    omega
  | powerNode l r ihl ihr =>
    simp only [Node.compileAux, ihl, ihr, CompState.genOp, CompState.pop,
      Node.emit, Node.maxDepth, CompState.mk.injEq]
    refine ⟨by simp, by ring, ?_⟩
    push_cast
    omega

theorem compile_eq_emit (t : Node Nat) :
    Compiler.compile t =
      { code := t.emit ++ [retOp], stackSize := 8 * (t.maxDepth : Int) } := by
  have h1 : (1 : Int) ≤ (t.maxDepth : Int) := by exact_mod_cast maxDepth_pos t
  simp only [Compiler.compile, compileAux_spec, CompState.genOp, Function.mk.injEq]
  constructor
  · simp
  · omega

theorem vmRun_push (o : Ops Nat) (cap : Nat) (v : Nat) (rest stack : List Nat)
    (hcap : stack.length < cap) :
    vmRun o cap (pushOp :: (encodeLE v ++ rest)) stack
      = vmRun o cap rest (v % 256 ^ 8 :: stack) := by
  rw [← decodeLE_encodeLE v, vmRun.eq_def]
  simp [encodeLE, decodeLE, hcap, pushOp]

theorem vmRun_ret (o : Ops Nat) (cap : Nat) (v : Nat) (rest s : List Nat) :
    vmRun o cap (retOp :: rest) (v :: s) = .ret v (v :: s) := by
  rw [vmRun.eq_def]
  simp [retOp, pushOp]

theorem vmRun_binop (o : Ops Nat) (cap b : Nat) (hb1 : 1 ≤ b) (hb5 : b ≤ 5)
    (rest : List Nat) (y x : Nat) (s : List Nat) :
    vmRun o cap (b :: rest) (y :: x :: s) = vmRun o cap rest (binopFn o b x y :: s) := by
  have h0 : ¬b = pushOp := by simp only [pushOp]; omega
  have h6 : ¬b = retOp := by simp only [retOp]; omega
  rw [vmRun.eq_def]
  simp [h0, h6, hb5]

/-- Compiler/VM simulation: the code emitted for a subtree, run on any
stack with room for the subtree's peak depth, pushes exactly the
subtree's value. -/
theorem vmRun_emit (o : Ops Nat) (cap : Nat) (t : Node Nat) (hwf : t.wfb = true)
    (k s : List Nat) (hcap : s.length + t.maxDepth ≤ cap) :
    vmRun o cap (t.emit ++ k) s = vmRun o cap k (t.eval o :: s) := by
  induction t generalizing k s with
  | valueNode v =>
    have hv : v < 256 ^ 8 := by simpa [Node.wfb] using hwf
    have hlt : s.length < cap := by
      simp only [Node.maxDepth] at hcap; omega
    simp only [Node.emit, List.cons_append, Node.eval]
    rw [vmRun_push o cap v k s hlt, Nat.mod_eq_of_lt hv]
  | plusNode l r ihl ihr =>
    simp only [Node.wfb, Bool.and_eq_true] at hwf
    simp only [Node.maxDepth] at hcap
    simp only [Node.emit, List.append_assoc, List.cons_append, List.nil_append,
      Node.eval]
    rw [ihl hwf.1 _ s (by omega), ihr hwf.2 _ (l.eval o :: s) (by simp; omega),
      vmRun_binop o cap addOp (by simp [addOp]) (by simp [addOp])]
    simp [binopFn, addOp, subOp, mulOp, divOp]
  | minusNode l r ihl ihr =>
    simp only [Node.wfb, Bool.and_eq_true] at hwf
    simp only [Node.maxDepth] at hcap
    simp only [Node.emit, List.append_assoc, List.cons_append, List.nil_append,
      Node.eval]
    rw [ihl hwf.1 _ s (by omega), ihr hwf.2 _ (l.eval o :: s) (by simp; omega),
      vmRun_binop o cap subOp (by simp [subOp]) (by simp [subOp])]
    simp [binopFn, addOp, subOp, mulOp, divOp]
  | multiplyNode l r ihl ihr =>
    simp only [Node.wfb, Bool.and_eq_true] at hwf
    simp only [Node.maxDepth] at hcap
    simp only [Node.emit, List.append_assoc, List.cons_append, List.nil_append,
      Node.eval]
    rw [ihl hwf.1 _ s (by omega), ihr hwf.2 _ (l.eval o :: s) (by simp; omega),
      vmRun_binop o cap mulOp (by simp [mulOp]) (by simp [mulOp])]
    simp [binopFn, addOp, subOp, mulOp, divOp]
  | divideNode l r ihl ihr =>
    simp only [Node.wfb, Bool.and_eq_true] at hwf
    simp only [Node.maxDepth] at hcap
    simp only [Node.emit, List.append_assoc, List.cons_append, List.nil_append,
      Node.eval]
    rw [ihl hwf.1 _ s (by omega), ihr hwf.2 _ (l.eval o :: s) (by simp; omega),
      vmRun_binop o cap divOp (by simp [divOp]) (by simp [divOp])]
    simp [binopFn, addOp, subOp, mulOp, divOp]
  | powerNode l r ihl ihr =>
    simp only [Node.wfb, Bool.and_eq_true] at hwf
    simp only [Node.maxDepth] at hcap
    simp only [Node.emit, List.append_assoc, List.cons_append, List.nil_append,
      Node.eval]
    rw [ihl hwf.1 _ s (by omega), ihr hwf.2 _ (l.eval o :: s) (by simp; omega),
      vmRun_binop o cap powOp (by simp [powOp]) (by simp [powOp])]
    simp [binopFn, addOp, subOp, mulOp, divOp, powOp]

/-- Running the full compiled program on an empty stack of capacity
`stackSize/8` values reaches `Ret` with exactly the tree value. -/
theorem vmRun_compile (o : Ops Nat) (t : Node Nat) (hwf : t.wfb = true) :
    vmRun o ((Compiler.compile t).stackSize / 8).toNat (Compiler.compile t).code []
      = .ret (t.eval o) [t.eval o] := by
  rw [compile_eq_emit]
  have hcap : ((8 * (t.maxDepth : Int)) / 8).toNat = t.maxDepth := by
    rw [Int.mul_ediv_cancel_left _ (by norm_num)]
    simp
  simp only [hcap]
  rw [vmRun_emit o t.maxDepth t hwf [retOp] [] (by simp)]
  exact vmRun_ret o t.maxDepth (t.eval o) [] []

theorem emit_length_pos (t : Node Nat) : 0 < t.emit.length := by
  induction t <;> simp [Node.emit, encodeLE]

theorem jitGo_push (v : Nat) (rest : List Nat) (off : Nat) (st : JitState) :
    jitGo (pushOp :: (encodeLE v ++ rest)) off st
      = jitGo rest (off + 9)
        { instrs := st.instrs
            ++ (if 0 < off then [X86Instr.fstpEbp (-st.sp)] else [])
            ++ [X86Instr.fldData st.data.length],
          data := st.data ++ [v % 256 ^ 8],
          sp := st.sp + 8,
          stackSize := st.stackSize } := by
  rw [← decodeLE_encodeLE v, jitGo.eq_def]
  simp [encodeLE, decodeLE, pushOp]

theorem jitGo_ret (rest : List Nat) (off : Nat) (st : JitState) :
    jitGo (retOp :: rest) off st
      = .ok { instrs := st.instrs ++ [X86Instr.leave, X86Instr.ret],
              data := st.data,
              frame := st.stackSize - 8 } := by
  rw [jitGo.eq_def]
  simp [retOp, pushOp]

theorem jitGo_pow (rest : List Nat) (off : Nat) (st : JitState) :
    jitGo (powOp :: rest) off st
      = jitGo rest (off + 1)
        { instrs := st.instrs
            ++ [X86Instr.fldEbp (-st.sp + 8), X86Instr.fstpEsp 0,
                X86Instr.fstpEsp 8, X86Instr.callPow],
          data := st.data,
          sp := st.sp - 8,
          stackSize := max st.stackSize (st.sp + 16) } := by
  rw [jitGo.eq_def]
  simp [powOp, pushOp, retOp]

theorem jitGo_binop (b : Nat) (hb1 : 1 ≤ b) (hb4 : b ≤ 4)
    (rest : List Nat) (off : Nat) (st : JitState) :
    jitGo (b :: rest) off st
      = jitGo rest (off + 1)
        { st with
            instrs := st.instrs ++ [jitBinopInstr b (-(st.sp - 8))],
            sp := st.sp - 8 } := by
  have h0 : ¬b = pushOp := by simp only [pushOp]; omega
  have h6 : ¬b = retOp := by simp only [retOp]; omega
  have h5 : ¬b = powOp := by simp only [powOp]; omega
  rw [jitGo.eq_def]
  simp [h0, h6, h5, hb4]

/-- JIT/compiler correspondence: running `jitGo` over the bytecode of a
subtree advances the offset by the subtree's code size and applies
`stepState`. -/
theorem jitGo_emit (t : Node Nat) (hwf : t.wfb = true) (rest : List Nat)
    (off : Nat) (st : JitState) :
    jitGo (t.emit ++ rest) off st
      = jitGo rest (off + t.emit.length) (stepState t off st) := by
  induction t generalizing rest off st with
  | valueNode v =>
    have hv : v % 256 ^ 8 = v :=
      Nat.mod_eq_of_lt (by simpa [Node.wfb] using hwf)
    simp only [Node.emit, List.cons_append]
    rw [jitGo_push, hv]
    rcases Nat.eq_zero_or_pos off with h | h
    · subst h
      simp [stepState, Node.jinstrs, Node.consts, Node.jss, Node.emit, encodeLE]
    · have hne : ¬off = 0 := by omega
      simp [stepState, Node.jinstrs, Node.consts, Node.jss, Node.emit,
        encodeLE, h, hne]
  | plusNode l r ihl ihr =>
    simp only [Node.wfb, Bool.and_eq_true] at hwf
    simp only [Node.emit, List.append_assoc, List.cons_append, List.nil_append]
    rw [ihl hwf.1, ihr hwf.2,
      jitGo_binop addOp (by simp [addOp]) (by simp [addOp])]
    refine congrArg₂ (jitGo rest) ?_ ?_
    · simp only [List.length_append, List.length_cons, List.length_nil]
      omega
    · simp [stepState, Node.jinstrs, Node.consts, Node.jss, jitBinopInstr,
        addOp, subOp, mulOp, divOp, List.append_assoc, List.length_append]
  | minusNode l r ihl ihr =>
    simp only [Node.wfb, Bool.and_eq_true] at hwf
    simp only [Node.emit, List.append_assoc, List.cons_append, List.nil_append]
    rw [ihl hwf.1, ihr hwf.2,
      jitGo_binop subOp (by simp [subOp]) (by simp [subOp])]
    refine congrArg₂ (jitGo rest) ?_ ?_
    · simp only [List.length_append, List.length_cons, List.length_nil]
      omega
    · simp [stepState, Node.jinstrs, Node.consts, Node.jss, jitBinopInstr,
        addOp, subOp, mulOp, divOp, List.append_assoc, List.length_append]
  | multiplyNode l r ihl ihr =>
    simp only [Node.wfb, Bool.and_eq_true] at hwf
    simp only [Node.emit, List.append_assoc, List.cons_append, List.nil_append]
    rw [ihl hwf.1, ihr hwf.2,
      jitGo_binop mulOp (by simp [mulOp]) (by simp [mulOp])]
    refine congrArg₂ (jitGo rest) ?_ ?_
    · simp only [List.length_append, List.length_cons, List.length_nil]
      omega
    · simp [stepState, Node.jinstrs, Node.consts, Node.jss, jitBinopInstr,
        addOp, subOp, mulOp, divOp, List.append_assoc, List.length_append]
  | divideNode l r ihl ihr =>
    simp only [Node.wfb, Bool.and_eq_true] at hwf
    simp only [Node.emit, List.append_assoc, List.cons_append, List.nil_append]
    rw [ihl hwf.1, ihr hwf.2,
      jitGo_binop divOp (by simp [divOp]) (by simp [divOp])]
    refine congrArg₂ (jitGo rest) ?_ ?_
    · simp only [List.length_append, List.length_cons, List.length_nil]
      omega
    · simp [stepState, Node.jinstrs, Node.consts, Node.jss, jitBinopInstr,
        addOp, subOp, mulOp, divOp, List.append_assoc, List.length_append]
  | powerNode l r ihl ihr =>
    simp only [Node.wfb, Bool.and_eq_true] at hwf
    simp only [Node.emit, List.append_assoc, List.cons_append, List.nil_append]
    rw [ihl hwf.1, ihr hwf.2, jitGo_pow]
    refine congrArg₂ (jitGo rest) ?_ ?_
    · simp only [List.length_append, List.length_cons, List.length_nil]
      omega
    · simp [stepState, Node.jinstrs, Node.consts, Node.jss,
        List.append_assoc, List.length_append, JitState.mk.injEq]
      omega

theorem x86Run_fldData (o : Ops Nat) (frame : Int) (data : List Nat) (k : Nat)
    (rest : List X86Instr) (st : X87St) (v : Nat) (h : data[k]? = some v) :
    x86Run o frame data (X86Instr.fldData k :: rest) st
      = x86Run o frame data rest { fp := v :: st.fp, mem := st.mem } := by
  rw [x86Run.eq_def]
  simp [h]

theorem x86Run_fldEbp (o : Ops Nat) (frame : Int) (data : List Nat) (d : Int)
    (rest : List X86Instr) (st : X87St) :
    x86Run o frame data (X86Instr.fldEbp d :: rest) st
      = x86Run o frame data rest { fp := st.mem d :: st.fp, mem := st.mem } := rfl

theorem x86Run_fstpEbp (o : Ops Nat) (frame : Int) (data : List Nat) (d : Int)
    (rest : List X86Instr) (v : Nat) (fp2 : List Nat) (m : Int → Nat) :
    x86Run o frame data (X86Instr.fstpEbp d :: rest) { fp := v :: fp2, mem := m }
      = x86Run o frame data rest { fp := fp2, mem := memWrite m d v } := rfl

theorem x86Run_faddEbp (o : Ops Nat) (frame : Int) (data : List Nat) (d : Int)
    (rest : List X86Instr) (v : Nat) (fp2 : List Nat) (m : Int → Nat) :
    x86Run o frame data (X86Instr.faddEbp d :: rest) { fp := v :: fp2, mem := m }
      = x86Run o frame data rest { fp := o.fadd v (m d) :: fp2, mem := m } := rfl

theorem x86Run_fsubrEbp (o : Ops Nat) (frame : Int) (data : List Nat) (d : Int)
    (rest : List X86Instr) (v : Nat) (fp2 : List Nat) (m : Int → Nat) :
    x86Run o frame data (X86Instr.fsubrEbp d :: rest) { fp := v :: fp2, mem := m }
      = x86Run o frame data rest { fp := o.fsub (m d) v :: fp2, mem := m } := rfl

theorem x86Run_fmulEbp (o : Ops Nat) (frame : Int) (data : List Nat) (d : Int)
    (rest : List X86Instr) (v : Nat) (fp2 : List Nat) (m : Int → Nat) :
    x86Run o frame data (X86Instr.fmulEbp d :: rest) { fp := v :: fp2, mem := m }
      = x86Run o frame data rest { fp := o.fmul v (m d) :: fp2, mem := m } := rfl

theorem x86Run_fdivrEbp (o : Ops Nat) (frame : Int) (data : List Nat) (d : Int)
    (rest : List X86Instr) (v : Nat) (fp2 : List Nat) (m : Int → Nat) :
    x86Run o frame data (X86Instr.fdivrEbp d :: rest) { fp := v :: fp2, mem := m }
      = x86Run o frame data rest { fp := o.fdiv (m d) v :: fp2, mem := m } := rfl

theorem x86Run_fstpEsp (o : Ops Nat) (frame : Int) (data : List Nat) (off : Nat)
    (rest : List X86Instr) (v : Nat) (fp2 : List Nat) (m : Int → Nat) :
    x86Run o frame data (X86Instr.fstpEsp off :: rest) { fp := v :: fp2, mem := m }
      = x86Run o frame data rest
          { fp := fp2, mem := memWrite m ((off : Int) - frame) v } := rfl

theorem x86Run_callPow (o : Ops Nat) (frame : Int) (data : List Nat)
    (rest : List X86Instr) (fp : List Nat) (m : Int → Nat) :
    x86Run o frame data (X86Instr.callPow :: rest) { fp := fp, mem := m }
      = x86Run o frame data rest
          { fp := o.fpow (m (-frame)) (m (8 - frame)) :: fp, mem := m } := rfl

theorem x86Run_leave (o : Ops Nat) (frame : Int) (data : List Nat)
    (rest : List X86Instr) (st : X87St) :
    x86Run o frame data (X86Instr.leave :: rest) st
      = x86Run o frame data rest st := rfl

theorem x86Run_ret (o : Ops Nat) (frame : Int) (data : List Nat)
    (rest : List X86Instr) (st : X87St) :
    x86Run o frame data (X86Instr.ret :: rest) st = some st := rfl

/-- The JIT output on a compiled tree is exactly `jitOutOf`. -/
theorem jitCompile_compile (t : Node Nat) (hwf : t.wfb = true) :
    jitCompile (Compiler.compile t) = .ok (jitOutOf t) := by
  rw [compile_eq_emit]
  show jitGo (t.emit ++ [retOp]) 0 _ = _
  rw [jitGo_emit t hwf, jitGo_ret]
  simp [stepState, jitOutOf]

theorem jss_mono (t : Node Nat) : ∀ sp ss, ss ≤ t.jss sp ss := by
  induction t with
  | valueNode v => intro sp ss; simp [Node.jss]
  | plusNode l r ihl ihr =>
    intro sp ss
    exact le_trans (ihl sp ss) (ihr (sp + 8) _)
  | minusNode l r ihl ihr =>
    intro sp ss
    exact le_trans (ihl sp ss) (ihr (sp + 8) _)
  | multiplyNode l r ihl ihr =>
    intro sp ss
    exact le_trans (ihl sp ss) (ihr (sp + 8) _)
  | divideNode l r ihl ihr =>
    intro sp ss
    exact le_trans (ihl sp ss) (ihr (sp + 8) _)
  | powerNode l r ihl ihr =>
    intro sp ss
    exact le_trans (le_trans (ihl sp ss) (ihr (sp + 8) _)) (le_max_left _ _)

theorem powSafe_of_le (t : Node Nat) :
    ∀ (sp ss frame : Int), t.jss sp ss - 8 ≤ frame → t.powSafe sp frame := by
  induction t with
  | valueNode v =>
    intro sp ss frame h
    simp [Node.powSafe]
  | plusNode l r ihl ihr =>
    intro sp ss frame h
    simp only [Node.jss] at h
    have hm := jss_mono r (sp + 8) (l.jss sp ss)
    exact ⟨ihl sp ss frame (by omega), ihr (sp + 8) (l.jss sp ss) frame (by omega)⟩
  | minusNode l r ihl ihr =>
    intro sp ss frame h
    simp only [Node.jss] at h
    have hm := jss_mono r (sp + 8) (l.jss sp ss)
    exact ⟨ihl sp ss frame (by omega), ihr (sp + 8) (l.jss sp ss) frame (by omega)⟩
  | multiplyNode l r ihl ihr =>
    intro sp ss frame h
    simp only [Node.jss] at h
    have hm := jss_mono r (sp + 8) (l.jss sp ss)
    exact ⟨ihl sp ss frame (by omega), ihr (sp + 8) (l.jss sp ss) frame (by omega)⟩
  | divideNode l r ihl ihr =>
    intro sp ss frame h
    simp only [Node.jss] at h
    have hm := jss_mono r (sp + 8) (l.jss sp ss)
    exact ⟨ihl sp ss frame (by omega), ihr (sp + 8) (l.jss sp ss) frame (by omega)⟩
  | powerNode l r ihl ihr =>
    intro sp ss frame h
    simp only [Node.jss] at h
    have hm := jss_mono r (sp + 8) (l.jss sp ss)
    refine ⟨ihl sp ss frame (by omega), ihr (sp + 8) (l.jss sp ss) frame (by omega),
      by omega⟩

/-- Main simulation lemma for a chunk that is not at offset 0: entered
with the single live value `v` in `ST0`, the chunk leaves the subtree's
value in `ST0`, has spilled `v` at `[EBP - sp]`, and has not touched any
memory shallower than `sp`. -/
theorem chunkRun (o : Ops Nat)
    (hadd : ∀ a b, o.fadd a b = o.fadd b a)
    (hmul : ∀ a b, o.fmul a b = o.fmul b a)
    (frame : Int) (data : List Nat) (t : Node Nat) :
    ∀ (sp : Int) (k off : Nat) (v : Nat) (m : Int → Nat) (rest : List X86Instr),
      0 < off →
      (∀ j, j < t.consts.length → data[k + j]? = t.consts[j]?) →
      t.powSafe sp frame →
      ∃ m2,
        x86Run o frame data (t.jinstrs off sp k ++ rest) { fp := [v], mem := m }
          = x86Run o frame data rest { fp := [t.eval o], mem := m2 }
        ∧ m2 (-sp) = v
        ∧ ∀ d, -sp < d → m2 d = m d := by
  induction t with
  | valueNode v0 =>
    intro sp k off v m rest hoff hdata hps
    have hd0 : data[k]? = some v0 := by
      have h2 := hdata 0 (by simp [Node.consts])
      simpa using h2
    have hne : ¬off = 0 := by omega
    refine ⟨memWrite m (-sp) v, ?_, by simp [memWrite], ?_⟩
    · simp only [Node.jinstrs, hne, if_false, List.cons_append, List.nil_append,
        List.singleton_append]
      rw [x86Run_fstpEbp, x86Run_fldData o frame data k _ _ v0 hd0]
      simp [Node.eval]
    · intro d hd
      simp [memWrite, show ¬d = -sp by omega]
  | plusNode l r ihl ihr =>
    intro sp k off v m rest hoff hdata hps
    simp only [Node.powSafe] at hps
    obtain ⟨hpl, hpr⟩ := hps
    have hdl : ∀ j, j < l.consts.length → data[k + j]? = l.consts[j]? := by
      intro j hj
      have h2 := hdata j (by simp only [Node.consts, List.length_append]; omega)
      simp only [Node.consts] at h2
      rwa [List.getElem?_append_left hj] at h2
    have hdr : ∀ j, j < r.consts.length →
        data[k + l.consts.length + j]? = r.consts[j]? := by
      intro j hj
      have h2 := hdata (l.consts.length + j)
        (by simp only [Node.consts, List.length_append]; omega)
      simp only [Node.consts] at h2
      rw [List.getElem?_append_right (by omega)] at h2
      rw [← Nat.add_assoc] at h2
      simpa using h2
    simp only [Node.jinstrs, List.append_assoc, List.cons_append,
      List.singleton_append, List.nil_append]
    obtain ⟨m1, hrun1, ha1, hb1⟩ := ihl sp k off v m
      (r.jinstrs (off + l.emit.length) (sp + 8) (k + l.consts.length)
        ++ X86Instr.faddEbp (-(sp + 8)) :: rest) hoff hdl hpl
    obtain ⟨m2, hrun2, ha2, hb2⟩ := ihr (sp + 8) (k + l.consts.length)
      (off + l.emit.length) (l.eval o) m1 (X86Instr.faddEbp (-(sp + 8)) :: rest)
      (by have := emit_length_pos l; omega) hdr hpr
    refine ⟨m2, ?_, ?_, ?_⟩
    · rw [hrun1, hrun2, x86Run_faddEbp, ha2, hadd]
      simp [Node.eval]
    · rw [hb2 (-sp) (by omega), ha1]
    · intro d hd
      rw [hb2 d (by omega), hb1 d hd]
  | minusNode l r ihl ihr =>
    intro sp k off v m rest hoff hdata hps
    simp only [Node.powSafe] at hps
    obtain ⟨hpl, hpr⟩ := hps
    have hdl : ∀ j, j < l.consts.length → data[k + j]? = l.consts[j]? := by
      intro j hj
      have h2 := hdata j (by simp only [Node.consts, List.length_append]; omega)
      simp only [Node.consts] at h2
      rwa [List.getElem?_append_left hj] at h2
    have hdr : ∀ j, j < r.consts.length →
        data[k + l.consts.length + j]? = r.consts[j]? := by
      intro j hj
      have h2 := hdata (l.consts.length + j)
        (by simp only [Node.consts, List.length_append]; omega)
      simp only [Node.consts] at h2
      rw [List.getElem?_append_right (by omega)] at h2
      rw [← Nat.add_assoc] at h2
      simpa using h2
    simp only [Node.jinstrs, List.append_assoc, List.cons_append,
      List.singleton_append, List.nil_append]
    obtain ⟨m1, hrun1, ha1, hb1⟩ := ihl sp k off v m
      (r.jinstrs (off + l.emit.length) (sp + 8) (k + l.consts.length)
        ++ X86Instr.fsubrEbp (-(sp + 8)) :: rest) hoff hdl hpl
    obtain ⟨m2, hrun2, ha2, hb2⟩ := ihr (sp + 8) (k + l.consts.length)
      (off + l.emit.length) (l.eval o) m1 (X86Instr.fsubrEbp (-(sp + 8)) :: rest)
      (by have := emit_length_pos l; omega) hdr hpr
    refine ⟨m2, ?_, ?_, ?_⟩
    · rw [hrun1, hrun2, x86Run_fsubrEbp, ha2]
      simp [Node.eval]
    · rw [hb2 (-sp) (by omega), ha1]
    · intro d hd
      rw [hb2 d (by omega), hb1 d hd]
  | multiplyNode l r ihl ihr =>
    intro sp k off v m rest hoff hdata hps
    simp only [Node.powSafe] at hps
    obtain ⟨hpl, hpr⟩ := hps
    have hdl : ∀ j, j < l.consts.length → data[k + j]? = l.consts[j]? := by
      intro j hj
      have h2 := hdata j (by simp only [Node.consts, List.length_append]; omega)
      simp only [Node.consts] at h2
      rwa [List.getElem?_append_left hj] at h2
    have hdr : ∀ j, j < r.consts.length →
        data[k + l.consts.length + j]? = r.consts[j]? := by
      intro j hj
      have h2 := hdata (l.consts.length + j)
        (by simp only [Node.consts, List.length_append]; omega)
      simp only [Node.consts] at h2
      rw [List.getElem?_append_right (by omega)] at h2
      rw [← Nat.add_assoc] at h2
      simpa using h2
    simp only [Node.jinstrs, List.append_assoc, List.cons_append,
      List.singleton_append, List.nil_append]
    obtain ⟨m1, hrun1, ha1, hb1⟩ := ihl sp k off v m
      (r.jinstrs (off + l.emit.length) (sp + 8) (k + l.consts.length)
        ++ X86Instr.fmulEbp (-(sp + 8)) :: rest) hoff hdl hpl
    obtain ⟨m2, hrun2, ha2, hb2⟩ := ihr (sp + 8) (k + l.consts.length)
      (off + l.emit.length) (l.eval o) m1 (X86Instr.fmulEbp (-(sp + 8)) :: rest)
      (by have := emit_length_pos l; omega) hdr hpr
    refine ⟨m2, ?_, ?_, ?_⟩
    · rw [hrun1, hrun2, x86Run_fmulEbp, ha2, hmul]
      simp [Node.eval]
    · rw [hb2 (-sp) (by omega), ha1]
    · intro d hd
      rw [hb2 d (by omega), hb1 d hd]
  | divideNode l r ihl ihr =>
    intro sp k off v m rest hoff hdata hps
    simp only [Node.powSafe] at hps
    obtain ⟨hpl, hpr⟩ := hps
    have hdl : ∀ j, j < l.consts.length → data[k + j]? = l.consts[j]? := by
      intro j hj
      have h2 := hdata j (by simp only [Node.consts, List.length_append]; omega)
      simp only [Node.consts] at h2
      rwa [List.getElem?_append_left hj] at h2
    have hdr : ∀ j, j < r.consts.length →
        data[k + l.consts.length + j]? = r.consts[j]? := by
      intro j hj
      have h2 := hdata (l.consts.length + j)
        (by simp only [Node.consts, List.length_append]; omega)
      simp only [Node.consts] at h2
      rw [List.getElem?_append_right (by omega)] at h2
      rw [← Nat.add_assoc] at h2
      simpa using h2
    simp only [Node.jinstrs, List.append_assoc, List.cons_append,
      List.singleton_append, List.nil_append]
    obtain ⟨m1, hrun1, ha1, hb1⟩ := ihl sp k off v m
      (r.jinstrs (off + l.emit.length) (sp + 8) (k + l.consts.length)
        ++ X86Instr.fdivrEbp (-(sp + 8)) :: rest) hoff hdl hpl
    obtain ⟨m2, hrun2, ha2, hb2⟩ := ihr (sp + 8) (k + l.consts.length)
      (off + l.emit.length) (l.eval o) m1 (X86Instr.fdivrEbp (-(sp + 8)) :: rest)
      (by have := emit_length_pos l; omega) hdr hpr
    refine ⟨m2, ?_, ?_, ?_⟩
    · rw [hrun1, hrun2, x86Run_fdivrEbp, ha2]
      simp [Node.eval]
    · rw [hb2 (-sp) (by omega), ha1]
    · intro d hd
      rw [hb2 d (by omega), hb1 d hd]
  | powerNode l r ihl ihr =>
    intro sp k off v m rest hoff hdata hps
    simp only [Node.powSafe] at hps
    obtain ⟨hpl, hpr, hframe⟩ := hps
    have hdl : ∀ j, j < l.consts.length → data[k + j]? = l.consts[j]? := by
      intro j hj
      have h2 := hdata j (by simp only [Node.consts, List.length_append]; omega)
      simp only [Node.consts] at h2
      rwa [List.getElem?_append_left hj] at h2
    have hdr : ∀ j, j < r.consts.length →
        data[k + l.consts.length + j]? = r.consts[j]? := by
      intro j hj
      have h2 := hdata (l.consts.length + j)
        (by simp only [Node.consts, List.length_append]; omega)
      simp only [Node.consts] at h2
      rw [List.getElem?_append_right (by omega)] at h2
      rw [← Nat.add_assoc] at h2
      simpa using h2
    simp only [Node.jinstrs, List.append_assoc, List.cons_append,
      List.singleton_append, List.nil_append]
    obtain ⟨m1, hrun1, ha1, hb1⟩ := ihl sp k off v m
      (r.jinstrs (off + l.emit.length) (sp + 8) (k + l.consts.length)
        ++ X86Instr.fldEbp (-(sp + 8)) :: X86Instr.fstpEsp 0
          :: X86Instr.fstpEsp 8 :: X86Instr.callPow :: rest) hoff hdl hpl
    obtain ⟨m2, hrun2, ha2, hb2⟩ := ihr (sp + 8) (k + l.consts.length)
      (off + l.emit.length) (l.eval o) m1
      (X86Instr.fldEbp (-(sp + 8)) :: X86Instr.fstpEsp 0
        :: X86Instr.fstpEsp 8 :: X86Instr.callPow :: rest)
      (by have := emit_length_pos l; omega) hdr hpr
    have hne0 : ¬(-frame = 8 - frame) := by omega
    have hval1 :
        memWrite (memWrite m2 (-frame) (l.eval o)) (8 - frame) (r.eval o) (-frame)
          = l.eval o := by
      simp [memWrite, hne0]
    have hval2 :
        memWrite (memWrite m2 (-frame) (l.eval o)) (8 - frame) (r.eval o) (8 - frame)
          = r.eval o := by
      simp [memWrite]
    refine ⟨memWrite (memWrite m2 (-frame) (l.eval o)) (8 - frame) (r.eval o),
      ?_, ?_, ?_⟩
    · rw [hrun1, hrun2, x86Run_fldEbp]
      simp only []
      rw [ha2, x86Run_fstpEsp, x86Run_fstpEsp]
      simp only [Nat.cast_zero, zero_sub, Nat.cast_ofNat]
      rw [x86Run_callPow, hval1, hval2]
      simp [Node.eval]
    · have h1 : ¬(-sp = 8 - frame) := by omega
      have h2 : ¬(-sp = -frame) := by omega
      simp only [memWrite, h1, h2, if_false]
      rw [hb2 (-sp) (by omega), ha1]
    · intro d hd
      have h1 : ¬(d = 8 - frame) := by omega
      have h2 : ¬(d = -frame) := by omega
      simp only [memWrite, h1, h2, if_false]
      rw [hb2 d (by omega), hb1 d hd]

/-- Simulation lemma for the chunk at offset 0 (the whole program's
code): entered with an empty x87 stack, it leaves the tree's value in
`ST0` and touches no memory shallower than `sp`. -/
theorem chunkRunFirst (o : Ops Nat)
    (hadd : ∀ a b, o.fadd a b = o.fadd b a)
    (hmul : ∀ a b, o.fmul a b = o.fmul b a)
    (frame : Int) (data : List Nat) (t : Node Nat) :
    ∀ (sp : Int) (k : Nat) (m : Int → Nat) (rest : List X86Instr),
      (∀ j, j < t.consts.length → data[k + j]? = t.consts[j]?) →
      t.powSafe sp frame →
      ∃ m2,
        x86Run o frame data (t.jinstrs 0 sp k ++ rest) { fp := [], mem := m }
          = x86Run o frame data rest { fp := [t.eval o], mem := m2 }
        ∧ ∀ d, -sp < d → m2 d = m d := by
  induction t with
  | valueNode v0 =>
    intro sp k m rest hdata hps
    have hd0 : data[k]? = some v0 := by
      have h2 := hdata 0 (by simp [Node.consts])
      simpa using h2
    refine ⟨m, ?_, fun d _ => rfl⟩
    have hj : (Node.valueNode v0 : Node Nat).jinstrs 0 sp k ++ rest
        = X86Instr.fldData k :: rest := by
      simp [Node.jinstrs]
    rw [hj, x86Run_fldData o frame data k _ _ v0 hd0]
    simp [Node.eval]
  | plusNode l r ihl ihr =>
    intro sp k m rest hdata hps
    simp only [Node.powSafe] at hps
    obtain ⟨hpl, hpr⟩ := hps
    have hdl : ∀ j, j < l.consts.length → data[k + j]? = l.consts[j]? := by
      intro j hj
      have h2 := hdata j (by simp only [Node.consts, List.length_append]; omega)
      simp only [Node.consts] at h2
      rwa [List.getElem?_append_left hj] at h2
    have hdr : ∀ j, j < r.consts.length →
        data[k + l.consts.length + j]? = r.consts[j]? := by
      intro j hj
      have h2 := hdata (l.consts.length + j)
        (by simp only [Node.consts, List.length_append]; omega)
      simp only [Node.consts] at h2
      rw [List.getElem?_append_right (by omega)] at h2
      rw [← Nat.add_assoc] at h2
      simpa using h2
    simp only [Node.jinstrs, List.append_assoc, List.cons_append,
      List.singleton_append, List.nil_append]
    obtain ⟨m1, hrun1, hb1⟩ := ihl sp k m
      (r.jinstrs (0 + l.emit.length) (sp + 8) (k + l.consts.length)
        ++ X86Instr.faddEbp (-(sp + 8)) :: rest) hdl hpl
    obtain ⟨m2, hrun2, ha2, hb2⟩ := chunkRun o hadd hmul frame data r (sp + 8)
      (k + l.consts.length) (0 + l.emit.length) (l.eval o) m1
      (X86Instr.faddEbp (-(sp + 8)) :: rest)
      (by have := emit_length_pos l; omega) hdr hpr
    refine ⟨m2, ?_, ?_⟩
    · rw [hrun1, hrun2, x86Run_faddEbp, ha2, hadd]
      simp [Node.eval]
    · intro d hd
      rw [hb2 d (by omega), hb1 d hd]
  | minusNode l r ihl ihr =>
    intro sp k m rest hdata hps
    simp only [Node.powSafe] at hps
    obtain ⟨hpl, hpr⟩ := hps
    have hdl : ∀ j, j < l.consts.length → data[k + j]? = l.consts[j]? := by
      intro j hj
      have h2 := hdata j (by simp only [Node.consts, List.length_append]; omega)
      simp only [Node.consts] at h2
      rwa [List.getElem?_append_left hj] at h2
    have hdr : ∀ j, j < r.consts.length →
        data[k + l.consts.length + j]? = r.consts[j]? := by
      intro j hj
      have h2 := hdata (l.consts.length + j)
        (by simp only [Node.consts, List.length_append]; omega)
      simp only [Node.consts] at h2
      rw [List.getElem?_append_right (by omega)] at h2
      rw [← Nat.add_assoc] at h2
      simpa using h2
    simp only [Node.jinstrs, List.append_assoc, List.cons_append,
      List.singleton_append, List.nil_append]
    obtain ⟨m1, hrun1, hb1⟩ := ihl sp k m
      (r.jinstrs (0 + l.emit.length) (sp + 8) (k + l.consts.length)
        ++ X86Instr.fsubrEbp (-(sp + 8)) :: rest) hdl hpl
    obtain ⟨m2, hrun2, ha2, hb2⟩ := chunkRun o hadd hmul frame data r (sp + 8)
      (k + l.consts.length) (0 + l.emit.length) (l.eval o) m1
      (X86Instr.fsubrEbp (-(sp + 8)) :: rest)
      (by have := emit_length_pos l; omega) hdr hpr
    refine ⟨m2, ?_, ?_⟩
    · rw [hrun1, hrun2, x86Run_fsubrEbp, ha2]
      simp [Node.eval]
    · intro d hd
      rw [hb2 d (by omega), hb1 d hd]
  | multiplyNode l r ihl ihr =>
    intro sp k m rest hdata hps
    simp only [Node.powSafe] at hps
    obtain ⟨hpl, hpr⟩ := hps
    have hdl : ∀ j, j < l.consts.length → data[k + j]? = l.consts[j]? := by
      intro j hj
      have h2 := hdata j (by simp only [Node.consts, List.length_append]; omega)
      simp only [Node.consts] at h2
      rwa [List.getElem?_append_left hj] at h2
    have hdr : ∀ j, j < r.consts.length →
        data[k + l.consts.length + j]? = r.consts[j]? := by
      intro j hj
      have h2 := hdata (l.consts.length + j)
        (by simp only [Node.consts, List.length_append]; omega)
      simp only [Node.consts] at h2
      rw [List.getElem?_append_right (by omega)] at h2
      rw [← Nat.add_assoc] at h2
      simpa using h2
    simp only [Node.jinstrs, List.append_assoc, List.cons_append,
      List.singleton_append, List.nil_append]
    obtain ⟨m1, hrun1, hb1⟩ := ihl sp k m
      (r.jinstrs (0 + l.emit.length) (sp + 8) (k + l.consts.length)
        ++ X86Instr.fmulEbp (-(sp + 8)) :: rest) hdl hpl
    obtain ⟨m2, hrun2, ha2, hb2⟩ := chunkRun o hadd hmul frame data r (sp + 8)
      (k + l.consts.length) (0 + l.emit.length) (l.eval o) m1
      (X86Instr.fmulEbp (-(sp + 8)) :: rest)
      (by have := emit_length_pos l; omega) hdr hpr
    refine ⟨m2, ?_, ?_⟩
    · rw [hrun1, hrun2, x86Run_fmulEbp, ha2, hmul]
      simp [Node.eval]
    · intro d hd
      rw [hb2 d (by omega), hb1 d hd]
  | divideNode l r ihl ihr =>
    intro sp k m rest hdata hps
    simp only [Node.powSafe] at hps
    obtain ⟨hpl, hpr⟩ := hps
    have hdl : ∀ j, j < l.consts.length → data[k + j]? = l.consts[j]? := by
      intro j hj
      have h2 := hdata j (by simp only [Node.consts, List.length_append]; omega)
      simp only [Node.consts] at h2
      rwa [List.getElem?_append_left hj] at h2
    have hdr : ∀ j, j < r.consts.length →
        data[k + l.consts.length + j]? = r.consts[j]? := by
      intro j hj
      have h2 := hdata (l.consts.length + j)
        (by simp only [Node.consts, List.length_append]; omega)
      simp only [Node.consts] at h2
      rw [List.getElem?_append_right (by omega)] at h2
      rw [← Nat.add_assoc] at h2
      simpa using h2
    simp only [Node.jinstrs, List.append_assoc, List.cons_append,
      List.singleton_append, List.nil_append]
    obtain ⟨m1, hrun1, hb1⟩ := ihl sp k m
      (r.jinstrs (0 + l.emit.length) (sp + 8) (k + l.consts.length)
        ++ X86Instr.fdivrEbp (-(sp + 8)) :: rest) hdl hpl
    obtain ⟨m2, hrun2, ha2, hb2⟩ := chunkRun o hadd hmul frame data r (sp + 8)
      (k + l.consts.length) (0 + l.emit.length) (l.eval o) m1
      (X86Instr.fdivrEbp (-(sp + 8)) :: rest)
      (by have := emit_length_pos l; omega) hdr hpr
    refine ⟨m2, ?_, ?_⟩
    · rw [hrun1, hrun2, x86Run_fdivrEbp, ha2]
      simp [Node.eval]
    · intro d hd
      rw [hb2 d (by omega), hb1 d hd]
  | powerNode l r ihl ihr =>
    intro sp k m rest hdata hps
    simp only [Node.powSafe] at hps
    obtain ⟨hpl, hpr, hframe⟩ := hps
    have hdl : ∀ j, j < l.consts.length → data[k + j]? = l.consts[j]? := by
      intro j hj
      have h2 := hdata j (by simp only [Node.consts, List.length_append]; omega)
      simp only [Node.consts] at h2
      rwa [List.getElem?_append_left hj] at h2
    have hdr : ∀ j, j < r.consts.length →
        data[k + l.consts.length + j]? = r.consts[j]? := by
      intro j hj
      have h2 := hdata (l.consts.length + j)
        (by simp only [Node.consts, List.length_append]; omega)
      simp only [Node.consts] at h2
      rw [List.getElem?_append_right (by omega)] at h2
      rw [← Nat.add_assoc] at h2
      simpa using h2
    simp only [Node.jinstrs, List.append_assoc, List.cons_append,
      List.singleton_append, List.nil_append]
    obtain ⟨m1, hrun1, hb1⟩ := ihl sp k m
      (r.jinstrs (0 + l.emit.length) (sp + 8) (k + l.consts.length)
        ++ X86Instr.fldEbp (-(sp + 8)) :: X86Instr.fstpEsp 0
          :: X86Instr.fstpEsp 8 :: X86Instr.callPow :: rest) hdl hpl
    obtain ⟨m2, hrun2, ha2, hb2⟩ := chunkRun o hadd hmul frame data r (sp + 8)
      (k + l.consts.length) (0 + l.emit.length) (l.eval o) m1
      (X86Instr.fldEbp (-(sp + 8)) :: X86Instr.fstpEsp 0
        :: X86Instr.fstpEsp 8 :: X86Instr.callPow :: rest)
      (by have := emit_length_pos l; omega) hdr hpr
    have hne0 : ¬(-frame = 8 - frame) := by omega
    have hval1 :
        memWrite (memWrite m2 (-frame) (l.eval o)) (8 - frame) (r.eval o) (-frame)
          = l.eval o := by
      simp [memWrite, hne0]
    have hval2 :
        memWrite (memWrite m2 (-frame) (l.eval o)) (8 - frame) (r.eval o) (8 - frame)
          = r.eval o := by
      simp [memWrite]
    refine ⟨memWrite (memWrite m2 (-frame) (l.eval o)) (8 - frame) (r.eval o),
      ?_, ?_⟩
    · rw [hrun1, hrun2, x86Run_fldEbp]
      simp only []
      rw [ha2, x86Run_fstpEsp, x86Run_fstpEsp]
      simp only [Nat.cast_zero, zero_sub, Nat.cast_ofNat]
      rw [x86Run_callPow, hval1, hval2]
      simp [Node.eval]
    · intro d hd
      have h1 : ¬(d = 8 - frame) := by omega
      have h2 : ¬(d = -frame) := by omega
      simp only [memWrite, h1, h2, if_false]
      rw [hb2 d (by omega), hb1 d hd]

/-- The full JIT pipeline computes the tree-walk value: on the bytecode
of any well-formed tree the JIT emission succeeds and the emitted
function, run from any initial frame memory, returns the tree's value in
`ST0`. -/
theorem jitPipeline_compile (o : Ops Nat)
    (hadd : ∀ a b, o.fadd a b = o.fadd b a)
    (hmul : ∀ a b, o.fmul a b = o.fmul b a)
    (t : Node Nat) (hwf : t.wfb = true) (m : Int → Nat) :
    jitPipeline o (Compiler.compile t) m = some [t.eval o] := by
  unfold jitPipeline
  rw [jitCompile_compile t hwf]
  have hps : t.powSafe 0 (jitOutOf t).frame := by
    refine powSafe_of_le t 0 (8 * (t.maxDepth : Int)) _ ?_
    simp [jitOutOf]
  obtain ⟨m2, hrun, _⟩ := chunkRunFirst o hadd hmul (jitOutOf t).frame
    (jitOutOf t).data t 0 0 m [X86Instr.leave, X86Instr.ret]
    (by intro j hj; simp [jitOutOf]) hps
  show Option.map X87St.fp
      (x86Run o (jitOutOf t).frame (jitOutOf t).data (jitOutOf t).instrs
        { fp := [], mem := m }) = some [t.eval o]
  have hinstrs : (jitOutOf t).instrs
      = t.jinstrs 0 0 0 ++ [X86Instr.leave, X86Instr.ret] := rfl
  rw [hinstrs, hrun, x86Run_leave, x86Run_ret]
  rfl

theorem jinstrs_fstpEbp_bound (t : Node Nat) :
    ∀ (off : Nat) (sp : Int) (k : Nat) (d : Int),
      X86Instr.fstpEbp d ∈ t.jinstrs off sp k →
      sp ≤ -d ∧ -d ≤ sp + 8 * (t.maxDepth : Int) - 8 := by
  induction t with
  | valueNode v =>
    intro off sp k d hmem
    by_cases h : off = 0
    · simp [Node.jinstrs, h] at hmem
    · simp [Node.jinstrs, h] at hmem
      simp [Node.maxDepth, hmem]
  | plusNode l r ihl ihr =>
    intro off sp k d hmem
    simp only [Node.jinstrs, List.mem_append, List.mem_singleton] at hmem
    have hcast : ((Node.plusNode l r).maxDepth : Int)
        = max (l.maxDepth : Int) ((r.maxDepth : Int) + 1) := by
      simp [Node.maxDepth]
    rcases hmem with (hmem | hmem) | hmem
    · have h := ihl off sp k d hmem
      rw [hcast]
      constructor
      · exact h.1
      · have := le_max_left (l.maxDepth : Int) ((r.maxDepth : Int) + 1)
        omega
    · have h := ihr (off + l.emit.length) (sp + 8) (k + l.consts.length) d hmem
      rw [hcast]
      have := le_max_right (l.maxDepth : Int) ((r.maxDepth : Int) + 1)
      omega
    · simp at hmem
  | minusNode l r ihl ihr =>
    intro off sp k d hmem
    simp only [Node.jinstrs, List.mem_append, List.mem_singleton] at hmem
    have hcast : ((Node.minusNode l r).maxDepth : Int)
        = max (l.maxDepth : Int) ((r.maxDepth : Int) + 1) := by
      simp [Node.maxDepth]
    rcases hmem with (hmem | hmem) | hmem
    · have h := ihl off sp k d hmem
      rw [hcast]
      constructor
      · exact h.1
      · have := le_max_left (l.maxDepth : Int) ((r.maxDepth : Int) + 1)
        omega
    · have h := ihr (off + l.emit.length) (sp + 8) (k + l.consts.length) d hmem
      rw [hcast]
      have := le_max_right (l.maxDepth : Int) ((r.maxDepth : Int) + 1)
      omega
    · simp at hmem
  | multiplyNode l r ihl ihr =>
    intro off sp k d hmem
    simp only [Node.jinstrs, List.mem_append, List.mem_singleton] at hmem
    have hcast : ((Node.multiplyNode l r).maxDepth : Int)
        = max (l.maxDepth : Int) ((r.maxDepth : Int) + 1) := by
      simp [Node.maxDepth]
    rcases hmem with (hmem | hmem) | hmem
    · have h := ihl off sp k d hmem
      rw [hcast]
      constructor
      · exact h.1
      · have := le_max_left (l.maxDepth : Int) ((r.maxDepth : Int) + 1)
        omega
    · have h := ihr (off + l.emit.length) (sp + 8) (k + l.consts.length) d hmem
      rw [hcast]
      have := le_max_right (l.maxDepth : Int) ((r.maxDepth : Int) + 1)
      omega
    · simp at hmem
  | divideNode l r ihl ihr =>
    intro off sp k d hmem
    simp only [Node.jinstrs, List.mem_append, List.mem_singleton] at hmem
    have hcast : ((Node.divideNode l r).maxDepth : Int)
        = max (l.maxDepth : Int) ((r.maxDepth : Int) + 1) := by
      simp [Node.maxDepth]
    rcases hmem with (hmem | hmem) | hmem
    · have h := ihl off sp k d hmem
      rw [hcast]
      constructor
      · exact h.1
      · have := le_max_left (l.maxDepth : Int) ((r.maxDepth : Int) + 1)
        omega
    · have h := ihr (off + l.emit.length) (sp + 8) (k + l.consts.length) d hmem
      rw [hcast]
      have := le_max_right (l.maxDepth : Int) ((r.maxDepth : Int) + 1)
      omega
    · simp at hmem
  | powerNode l r ihl ihr =>
    intro off sp k d hmem
    simp only [Node.jinstrs, List.mem_append, List.mem_cons,
      List.mem_singleton] at hmem
    have hcast : ((Node.powerNode l r).maxDepth : Int)
        = max (l.maxDepth : Int) ((r.maxDepth : Int) + 1) := by
      simp [Node.maxDepth]
    rcases hmem with (hmem | hmem) | hmem
    · have h := ihl off sp k d hmem
      rw [hcast]
      constructor
      · exact h.1
      · have := le_max_left (l.maxDepth : Int) ((r.maxDepth : Int) + 1)
        omega
    · have h := ihr (off + l.emit.length) (sp + 8) (k + l.consts.length) d hmem
      rw [hcast]
      have := le_max_right (l.maxDepth : Int) ((r.maxDepth : Int) + 1)
      omega
    · rcases hmem with h | h | h | h <;> simp at h

theorem jinstrs_callPow_ss (t : Node Nat) :
    ∀ (off : Nat) (sp ss : Int) (k : Nat),
      X86Instr.callPow ∈ t.jinstrs off sp k → sp + 32 ≤ t.jss sp ss := by
  induction t with
  | valueNode v =>
    intro off sp ss k hmem
    exfalso
    by_cases h : off = 0 <;> simp [Node.jinstrs, h] at hmem
  | plusNode l r ihl ihr =>
    intro off sp ss k hmem
    simp only [Node.jinstrs, List.mem_append, List.mem_singleton] at hmem
    simp only [Node.jss]
    rcases hmem with (hmem | hmem) | hmem
    · have h1 := ihl off sp ss k hmem
      have h2 := jss_mono r (sp + 8) (l.jss sp ss)
      omega
    · have h1 := ihr (off + l.emit.length) (sp + 8) (l.jss sp ss)
        (k + l.consts.length) hmem
      omega
    · simp at hmem
  | minusNode l r ihl ihr =>
    intro off sp ss k hmem
    simp only [Node.jinstrs, List.mem_append, List.mem_singleton] at hmem
    simp only [Node.jss]
    rcases hmem with (hmem | hmem) | hmem
    · have h1 := ihl off sp ss k hmem
      have h2 := jss_mono r (sp + 8) (l.jss sp ss)
      omega
    · have h1 := ihr (off + l.emit.length) (sp + 8) (l.jss sp ss)
        (k + l.consts.length) hmem
      omega
    · simp at hmem
  | multiplyNode l r ihl ihr =>
    intro off sp ss k hmem
    simp only [Node.jinstrs, List.mem_append, List.mem_singleton] at hmem
    simp only [Node.jss]
    rcases hmem with (hmem | hmem) | hmem
    · have h1 := ihl off sp ss k hmem
      have h2 := jss_mono r (sp + 8) (l.jss sp ss)
      omega
    · have h1 := ihr (off + l.emit.length) (sp + 8) (l.jss sp ss)
        (k + l.consts.length) hmem
      omega
    · simp at hmem
  | divideNode l r ihl ihr =>
    intro off sp ss k hmem
    simp only [Node.jinstrs, List.mem_append, List.mem_singleton] at hmem
    simp only [Node.jss]
    rcases hmem with (hmem | hmem) | hmem
    · have h1 := ihl off sp ss k hmem
      have h2 := jss_mono r (sp + 8) (l.jss sp ss)
      omega
    · have h1 := ihr (off + l.emit.length) (sp + 8) (l.jss sp ss)
        (k + l.consts.length) hmem
      omega
    · simp at hmem
  | powerNode l r ihl ihr =>
    intro off sp ss k hmem
    simp only [Node.jss]
    have := le_max_right (r.jss (sp + 8) (l.jss sp ss)) (sp + 32)
    omega

/-! ## The claims -/

/-- Claim C1: for every expression (every AST, hence in particular every
parser output) the three execution modes agree: the bytecode VM run on a
stack of `stackSize/8` values returns the tree-walk value `t.eval o`,
and the JIT-compiled function returns the same value in `ST0` — over the
shared deterministic binary64 operations, so the returned bit patterns
coincide (NaN payload choice in the commutative `fadd`/`fmul` is the
claim's "all NaN" proviso, reflected by the commutativity hypotheses). -/
theorem modes_agree (o : Ops Nat)
    (hadd : ∀ a b, o.fadd a b = o.fadd b a)
    (hmul : ∀ a b, o.fmul a b = o.fmul b a)
    (t : Node Nat) (hwf : t.wfb = true) (m : Int → Nat) :
    vmRun o ((Compiler.compile t).stackSize / 8).toNat (Compiler.compile t).code []
        = VMResult.ret (t.eval o) [t.eval o]
    ∧ jitPipeline o (Compiler.compile t) m = some [t.eval o] :=
  ⟨vmRun_compile o t hwf, jitPipeline_compile o hadd hmul t hwf m⟩

theorem modes_agree_witness :
    (∀ a b, natOps.fadd a b = natOps.fadd b a)
    ∧ (Node.plusNode (Node.valueNode 2) (Node.valueNode 3)).wfb = true
    ∧ (vmRun natOps
          ((Compiler.compile (Node.plusNode (Node.valueNode 2)
            (Node.valueNode 3))).stackSize / 8).toNat
          (Compiler.compile (Node.plusNode (Node.valueNode 2)
            (Node.valueNode 3))).code []
        = VMResult.ret 5 [5]
      ∧ jitPipeline natOps
          (Compiler.compile (Node.plusNode (Node.valueNode 2) (Node.valueNode 3)))
          zeroMem
        = some [5]) :=
  ⟨fun a b => Nat.add_comm a b, by decide,
    modes_agree natOps (fun a b => Nat.add_comm a b) (fun a b => Nat.mul_comm a b)
      (Node.plusNode (Node.valueNode 2) (Node.valueNode 3)) (by decide) zeroMem⟩

/-- Claim C2: the bytecode compiler is the post-order walk: the emitted
code is the compositional `emit` (leaf: `Push` byte followed by the 8 raw
value bytes; binary node: left code, right code, opcode byte) closed by a
final `Ret` byte, and the reported `stackSize` is the running maximum of
the shadow counter, i.e. 8 bytes times the peak operand-stack depth. -/
theorem compiler_postorder (t : Node Nat) :
    (Compiler.compile t).code = t.emit ++ [retOp]
    ∧ (Compiler.compile t).stackSize = 8 * (t.maxDepth : Int) := by
  rw [compile_eq_emit]
  exact ⟨rfl, rfl⟩

/-- Claim C3: the compiled bytecode is well-formed: executed on an
operand stack of capacity `stackSize/8` values, the run neither
underflows nor overflows (those outcomes are distinct `VMResult`s) and
reaches `Ret` with exactly one value — the tree value — on the stack,
which is returned. -/
theorem bytecode_wellformed (o : Ops Nat) (t : Node Nat) (hwf : t.wfb = true) :
    vmRun o ((Compiler.compile t).stackSize / 8).toNat (Compiler.compile t).code []
      = VMResult.ret (t.eval o) [t.eval o] :=
  vmRun_compile o t hwf

theorem bytecode_wellformed_witness :
    (Node.powerNode (Node.valueNode 2) (Node.valueNode 3)).wfb = true
    ∧ vmRun natOps
        ((Compiler.compile (Node.powerNode (Node.valueNode 2)
          (Node.valueNode 3))).stackSize / 8).toNat
        (Compiler.compile (Node.powerNode (Node.valueNode 2)
          (Node.valueNode 3))).code []
      = VMResult.ret 8 [8] :=
  ⟨by decide, bytecode_wellformed natOps
    (Node.powerNode (Node.valueNode 2) (Node.valueNode 3)) (by decide)⟩

/-- Claim C4: the frame size the JIT patches into `sub stackSize, ESP`
(the tracked peak minus 8, with the peak raised to at least `sp + 16` at
each `Pow`) covers every `fstpl` spill displacement and the two
`[ESP]`/`[ESP+8]` argument slots of every emitted `call pow`:
`frameOk` checks exactly that over the emitted instruction list. -/
theorem frame_sufficient (t : Node Nat) (hwf : t.wfb = true) :
    jitCompile (Compiler.compile t) = Except.ok (jitOutOf t)
    ∧ frameOk (jitOutOf t) = true := by
  refine ⟨jitCompile_compile t hwf, ?_⟩
  simp only [frameOk, List.all_eq_true]
  intro i hi
  have hframe : (jitOutOf t).frame = t.jss 0 (8 * (t.maxDepth : Int)) - 8 := rfl
  have hinstrs : (jitOutOf t).instrs
      = t.jinstrs 0 0 0 ++ [X86Instr.leave, X86Instr.ret] := rfl
  rw [hinstrs] at hi
  simp only [List.mem_append, List.mem_cons, List.mem_singleton] at hi
  match i with
  | X86Instr.fstpEbp d =>
    rcases hi with hi | hi | hi
    · have h := jinstrs_fstpEbp_bound t 0 0 0 d hi
      have hmono := jss_mono t 0 (8 * (t.maxDepth : Int))
      simp only [decide_eq_true_eq]
      rw [hframe]
      omega
    · exact absurd hi (by simp)
    · exact absurd hi (by simp)
  | X86Instr.callPow =>
    rcases hi with hi | hi | hi
    · have h := jinstrs_callPow_ss t 0 0 (8 * (t.maxDepth : Int)) 0 hi
      simp only [decide_eq_true_eq]
      rw [hframe]
      omega
    · exact absurd hi (by simp)
    · exact absurd hi (by simp)
  | X86Instr.fldData k => rfl
  | X86Instr.fldEbp d => rfl
  | X86Instr.faddEbp d => rfl
  | X86Instr.fsubrEbp d => rfl
  | X86Instr.fmulEbp d => rfl
  | X86Instr.fdivrEbp d => rfl
  | X86Instr.fstpEsp off => rfl
  | X86Instr.leave => rfl
  | X86Instr.ret => rfl

theorem frame_sufficient_witness :
    (Node.powerNode (Node.valueNode 2) (Node.valueNode 3)).wfb = true
    ∧ (jitCompile (Compiler.compile (Node.powerNode (Node.valueNode 2)
          (Node.valueNode 3)))
        = Except.ok (jitOutOf (Node.powerNode (Node.valueNode 2) (Node.valueNode 3)))
      ∧ frameOk (jitOutOf (Node.powerNode (Node.valueNode 2) (Node.valueNode 3)))
        = true) :=
  ⟨by decide, frame_sufficient
    (Node.powerNode (Node.valueNode 2) (Node.valueNode 3)) (by decide)⟩

/-- Claim C5: the second JIT variant emits no machine instructions for
the `Pow` opcode — it only steps past the opcode byte — so the function
emitted for bytecode containing `Pow` is the one emitted for the same
bytecode with the `Pow` opcode removed. -/
theorem jit2_pow_skipped :
    (∀ (rest : List Nat) (acc : List X86Instr2),
      jit2Go (powOp :: rest) acc = jit2Go rest acc)
    ∧ jit2Go ((Node.valueNode 2 : Node Nat).emit
        ++ (Node.valueNode 3 : Node Nat).emit ++ [powOp, retOp]) []
      = jit2Go ((Node.valueNode 2 : Node Nat).emit
        ++ (Node.valueNode 3 : Node Nat).emit ++ [retOp]) [] := by
  constructor
  · intro rest acc
    rw [jit2Go.eq_def]
    simp [powOp, pushOp, retOp]
  · rfl

/-- Claim C6: the parser folds `^` left-associatively: `2 ^ 3 ^ 2`
parses as `(2^3)^2`, which evaluates (exactly) to 64. -/
theorem power_left_assoc :
    Parser.parse (lex ("2 ^ 3 ^ 2"))
        = Except.ok (Node.powerNode
            (Node.powerNode (Node.valueNode 2) (Node.valueNode 3)) (Node.valueNode 2))
    ∧ Node.eval qOps (Node.powerNode
        (Node.powerNode (Node.valueNode 2) (Node.valueNode 3)) (Node.valueNode 2))
      = 64 :=
  ⟨rfl, by decide⟩

/-- Claim C7: both the bytecode VM and the JIT translator fail with the
"invalid byte code" error on any opcode byte outside the seven defined
ones (0..6). -/
theorem invalid_opcode (o : Ops Nat) (cap b : Nat) (hb : 7 ≤ b)
    (rest stack : List Nat) (off : Nat) (st : JitState) :
    vmRun o cap (b :: rest) stack = VMResult.invalidByteCode
    ∧ jitGo (b :: rest) off st = Except.error JitErr.invalidByteCode := by
  have h0 : ¬b = pushOp := by simp only [pushOp]; omega
  have h6 : ¬b = retOp := by simp only [retOp]; omega
  have h5 : ¬b = powOp := by simp only [powOp]; omega
  have h54 : ¬b ≤ 5 := by omega
  have h4 : ¬b ≤ 4 := by omega
  constructor
  · rw [vmRun.eq_def]
    simp [h0, h6, h54]
  · rw [jitGo.eq_def]
    simp [h0, h6, h5, h4]

theorem invalid_opcode_witness :
    7 ≤ 7 ∧ (vmRun natOps 0 [7] [] = VMResult.invalidByteCode
      ∧ jitGo [7] 0 { instrs := [], data := [], sp := 0, stackSize := 0 }
          = Except.error JitErr.invalidByteCode) :=
  ⟨le_refl 7, invalid_opcode natOps 0 7 (le_refl 7) [] [] 0
    { instrs := [], data := [], sp := 0, stackSize := 0 }⟩

/-- Claim C8: an opening parenthesis that is never closed — as in
`(1 + 2` — makes parsing fail with exactly the error
"unmatched parentheses". -/
theorem unmatched_parentheses :
    Parser.parse (lex ("(1 + 2")) = Except.error ("unmatched parentheses") := rfl

/-- Claim C9: compiling the same AST twice through the same reused,
stateful `Compiler` object yields byte-for-byte identical bytecode and
equal `stackSize` (the member state is cleared on entry). -/
theorem compile_idempotent (c : CompState) (t : Node Nat) :
    ((Compiler.compileMember (Compiler.compileMember c t).1 t).2).code
        = ((Compiler.compileMember c t).2).code
    ∧ ((Compiler.compileMember (Compiler.compileMember c t).1 t).2).stackSize
        = ((Compiler.compileMember c t).2).stackSize :=
  ⟨rfl, rfl⟩

/-- Claim C10: a digit run immediately followed by a dot lexes as one
Number token that includes the dot even with no digits after it: the
input `1.` produces the Number token with lexeme `1.` and then End. -/
theorem lex_digits_dot :
    lex ("1.") = [{ id := 'n', text := "1." }, { id := 'e', text := "" }] := by
  decide

end JitCalc
